import Mathlib

/-!
# Verification of the MIPS_Sim assembler and web-API state machine

This file gives a shallow embedding of the assembler
(`src/native/src/assembler/assemble.rs`) and of the foreground state
machine (`src/native/src/webapi/state.rs`) of the MIPS_Sim repository,
and proves properties of the embedded definitions.

Strings are modelled as lists of characters (`Str`).  Machine integers
(`u32`, `u8`) are modelled as `Nat` with explicit range checks or
`% 2^32` where the source relies on width.  Whitespace is modelled as
the ASCII whitespace characters (the source uses Rust's Unicode
`char::is_whitespace`; the sources and claims only involve ASCII).
-/

/-- Character-list strings, the model of Rust `&str`. -/
abbrev Str := List Char

/-- Convert a Lean string literal into the `Str` model. -/
def str (s : String) : Str := s.data

/-- ASCII whitespace, modelling Rust `char::is_whitespace` on ASCII input. -/
def isWs (c : Char) : Bool :=
  c = ' ' || c = '\t' || c = '\n' || c = '\r' || c = Char.ofNat 11 || c = Char.ofNat 12

/-- Drop leading whitespace, modelling `str::trim_start`. -/
def trimLeft (l : Str) : Str := l.dropWhile (fun c => isWs c)

/-- Drop leading and trailing whitespace, modelling `str::trim`. -/
def trim (l : Str) : Str := trimLeft ((trimLeft l.reverse).reverse)

/-- Everything before the first `#`, modelling
`if let Some(p) = line.find('#') { line = &line[..p] }`. -/
def stripComment : Str → Str
  | [] => []
  | c :: cs => if c = '#' then [] else c :: stripComment cs

/-- `str::strip_prefix`: `some` of the rest when `p` is a prefix of `l`. -/
def stripPre (l p : Str) : Option Str :=
  if p.isPrefixOf l then some (l.drop p.length) else none

/-- The rest of `line` after its leading token `tok`.  The source uses
`line.strip_prefix(tok).expect(..)`; the `expect` cannot fire because
`tok` is always the first whitespace token of the trimmed line, so the
fallback branch is unreachable. -/
def restAfter (line tok : Str) : Str :=
  match stripPre line tok with
  | some r => r
  | none => line.drop tok.length

/-- Split at every occurrence of `c`, keeping empty pieces,
modelling Rust `str::split(c)`. -/
def splitChar (c : Char) : Str → List Str
  | [] => [[]]
  | x :: xs =>
    match splitChar c xs with
    | [] => [[]]
    | h :: t => if x = c then [] :: h :: t else (x :: h) :: t

/-- Strip one trailing carriage return, as Rust `lines()` does per line. -/
def stripCr (l : Str) : Str :=
  if l.getLast? = some '\r' then l.dropLast else l

/-- Rust `str::lines`: split at `'\n'`, no piece for a trailing
terminator.  A piece that was `'\n'`-terminated (every piece but the
last) is stripped of one trailing `'\r'`; a final unterminated piece
keeps its characters. -/
def rustLines (s : Str) : List Str :=
  let parts := splitChar '\n' s
  let body := parts.dropLast.map stripCr
  match parts.getLast? with
  | some [] => body
  | some last => body ++ [last]
  | none => body

/-- Accumulator-passing worker for `splitWhitespace`. -/
def splitWsAux : Str → Str → List Str
  | [], acc => if acc = [] then [] else [acc.reverse]
  | c :: cs, acc =>
    if isWs c then
      if acc = [] then splitWsAux cs [] else acc.reverse :: splitWsAux cs []
    else splitWsAux cs (c :: acc)

/-- Rust `str::split_whitespace`: maximal runs of non-whitespace. -/
def splitWhitespace (l : Str) : List Str := splitWsAux l []

/-- ASCII-lowercase a string, modelling `str::to_ascii_lowercase`. -/
def lowerStr (l : Str) : Str :=
  l.map (fun c => if 'A' ≤ c ∧ c ≤ 'Z' then Char.ofNat (c.toNat + 32) else c)

/-- Value of one digit character (`0-9`, `a-f`).  Number tokens are
lowercased before parsing, so uppercase hex digits never reach here. -/
def charDigitVal (c : Char) : Option Nat :=
  if '0' ≤ c ∧ c ≤ '9' then some (c.toNat - 48)
  else if 'a' ≤ c ∧ c ≤ 'f' then some (c.toNat - 87)
  else none

/-- Digits-only parse in the given radix: nonempty, every digit legal. -/
def parseDigits (radix : Nat) : Str → Option Nat
  | [] => none
  | l =>
    l.foldl
      (fun acc c =>
        match acc, charDigitVal c with
        | some a, some d => if d < radix then some (a * radix + d) else none
        | _, _ => none)
      (some 0)

/-- Rust `uN::from_str_radix`: an optional leading `+` (a `-` is
rejected for unsigned types), then digits; values reaching `cap`
(`2^32` or `2^8`) overflow and fail. -/
def parseNumCore (radix cap : Nat) (s : Str) : Option Nat :=
  let t := match s with
    | c :: rest => if c = '+' then rest else s
    | [] => s
  match parseDigits radix t with
  | some v => if v < cap then some v else none
  | none => none

/-- `try_parse_number` from assemble.rs: lowercase, then dispatch on a
`0x`/`0o`/`0b` prefix, else decimal, as a `u32`. -/
def try_parse_number (text : Str) : Option Nat :=
  let t := lowerStr text
  match stripPre t (str "0x") with
  | some rest => parseNumCore 16 4294967296 rest
  | none =>
    match stripPre t (str "0o") with
    | some rest => parseNumCore 8 4294967296 rest
    | none =>
      match stripPre t (str "0b") with
      | some rest => parseNumCore 2 4294967296 rest
      | none => parseNumCore 10 4294967296 t

deriving instance DecidableEq for Except

/-- The assembler's error type (`AssemblerError` in error.rs).  The
`BaseAddressOutOfRange` payload carries the offending address and the
bounds of the `RangeInclusive` it missed. -/
inductive AssemblerError where
  | invalidRegisterName : Str → AssemblerError
  | trailingToken : Str → AssemblerError
  | invalidNumberOfOperands : Str → AssemblerError
  | unknownInstruction : Str → AssemblerError
  | lineTooLong : AssemblerError
  | baseAddressOutOfRange : Nat → Nat → Nat → AssemblerError
  | segmentRequired : Str → AssemblerError
  | requiredArgNotFound : AssemblerError
  | invalidToken : Str → AssemblerError
deriving DecidableEq, Repr

/-- The textual register-name table of `try_parse_reg` (note: the
source has no entry for `v1`). -/
def regNames : List (String × Nat) :=
  [("r0", 0), ("zero", 0), ("at", 1), ("v0", 2),
   ("a0", 4), ("a1", 5), ("a2", 6), ("a3", 7),
   ("t0", 8), ("t1", 9), ("t2", 10), ("t3", 11),
   ("t4", 12), ("t5", 13), ("t6", 14), ("t7", 15),
   ("s0", 16), ("s1", 17), ("s2", 18), ("s3", 19),
   ("s4", 20), ("s5", 21), ("s6", 22), ("s7", 23),
   ("t8", 24), ("t9", 25), ("k0", 26), ("k1", 27),
   ("gp", 28), ("sp", 29), ("s8", 30), ("ra", 31)]

/-- Look a stripped register name up in the table. -/
def regNameIdx (s : Str) : Option Nat :=
  (regNames.find? (fun p => p.1.data = s)).map (fun p => p.2)

/-- `try_parse_reg`: strip `$`, try the numeric `u8` form (accepted
only when `< 32`, otherwise fall through), then the textual table. -/
def try_parse_reg (text : Str) : Except AssemblerError Nat :=
  match stripPre text (str "$") with
  | none => .error (.invalidRegisterName text)
  | some stripped =>
    let byName : Except AssemblerError Nat :=
      match regNameIdx stripped with
      | some i => .ok i
      | none => .error (.invalidRegisterName text)
    match parseNumCore 10 256 stripped with
    | some x => if x < 32 then .ok x else byName
    | none => byName

/-- `bail_trailing_token`: error on the first leftover token. -/
def bail_trailing_token (l : List Str) : Except AssemblerError Unit :=
  match l with
  | x :: _ => .error (.trailingToken x)
  | [] => .ok ()

/-- The R-format operand record (`FormatR` in instruction.rs). -/
structure FormatR where
  rd : Nat
  rs : Nat
  rt : Nat
  shamt : Nat
deriving DecidableEq, Repr

/-- The modelled instruction set. -/
inductive Instruction where
  | And : FormatR → Instruction
  | Or : FormatR → Instruction
  | Add : FormatR → Instruction
  | Sub : FormatR → Instruction
  | Slt : FormatR → Instruction
deriving DecidableEq, Repr

/-- The operand record of an instruction. -/
def formatOf : Instruction → FormatR
  | .And f => f
  | .Or f => f
  | .Add f => f
  | .Sub f => f
  | .Slt f => f

/-- The fixed funct code of each mnemonic. -/
def functOf : Instruction → Nat
  | .And _ => 0x24
  | .Or _ => 0x25
  | .Add _ => 0x20
  | .Sub _ => 0x22
  | .Slt _ => 0x2a

/-- Modelled from the spec: `Instruction::encode` lives in
instruction.rs, which is not under src/.  Spec section 4.1 fixes the
layout `opcode(6 bits, always 0) | rs(5) | rt(5) | rd(5) | shamt(5) |
funct(6)` with the funct table `functOf`. -/
def Instruction.encode (i : Instruction) : Nat :=
  let f := formatOf i
  f.rs % 32 * 2097152 + f.rt % 32 * 65536 + f.rd % 32 * 2048 + f.shamt % 32 * 64 + functOf i

/-- `try_parse_3arg`: take three comma-separated operands, reject a
fourth, then parse each (trimmed) as a register, in order. -/
def try_parse_3arg (line : Str) (args : List Str) : Except AssemblerError FormatR :=
  match args with
  | rd :: rs :: rt :: rest => do
    bail_trailing_token rest
    let rdv ← try_parse_reg (trim rd)
    let rsv ← try_parse_reg (trim rs)
    let rtv ← try_parse_reg (trim rt)
    .ok { rd := rdv, rs := rsv, rt := rtv, shamt := 0 }
  | _ => .error (.invalidNumberOfOperands line)

/-- `try_parse_ins`: operands are everything after the mnemonic, split
on commas; unknown mnemonics are rejected. -/
def try_parse_ins (line ft : Str) : Except AssemblerError Instruction :=
  let args := splitChar ',' (restAfter line ft)
  if ft = str "and" then (try_parse_3arg line args).map .And
  else if ft = str "or" then (try_parse_3arg line args).map .Or
  else if ft = str "add" then (try_parse_3arg line args).map .Add
  else if ft = str "sub" then (try_parse_3arg line args).map .Sub
  else if ft = str "slt" then (try_parse_3arg line args).map .Slt
  else .error (.unknownInstruction ft)

/-- Byte-order tag (`EndianMode` in memory.rs, not under src/; the two
variants follow spec sections 3 and 4.4). -/
inductive EndianMode where
  | little
  | big
deriving DecidableEq, Repr

/-- Modelled from the spec: the copy of `assemble` under src/ writes
words with `to_ne_bytes` (host order) and takes no endianness, but the
`assemble(endian, code)` invoked by `State::assemble` is not under
src/; per the spec contract each parsed 32-bit value is appended "in
the configured byte order".  `u32Bytes e v` is that serialization. -/
def u32Bytes (e : EndianMode) (v : Nat) : List Nat :=
  let b0 := v % 256
  let b1 := v / 256 % 256
  let b2 := v / 65536 % 256
  let b3 := v / 16777216 % 256
  match e with
  | .little => [b0, b1, b2, b3]
  | .big => [b3, b2, b1, b0]

/-- A segment: base address, byte buffer, label table
(`Segment` in segment.rs). -/
structure Segment where
  base_addr : Nat
  data : List Nat
  labels : List (Str × Nat)
deriving DecidableEq, Repr

/-- Modelled from the spec: `Segment::new` lives in segment.rs, not
under src/.  A fresh segment holds the base address, no bytes and no
labels (the assembler tests assert `labels.is_empty()`). -/
def Segment.new (base : Nat) : Segment :=
  { base_addr := base, data := [], labels := [] }

/-- The loop state of `assemble`: finished segments, the open segment,
the `.globl` set, the current segment-class flag and the two
high-water marks. -/
structure AsmState where
  segs : List Segment
  curr_seg : Option Segment
  global_labels : List Str
  is_text_seg : Bool
  next_data_addr : Nat
  next_text_addr : Nat
deriving DecidableEq, Repr

/-- The initial loop state of `assemble`. -/
def asmInit : AsmState :=
  { segs := [], curr_seg := none, global_labels := [],
    is_text_seg := false, next_data_addr := 0x10000000, next_text_addr := 0x00400000 }

/-- After a `.word` or instruction line the source advances the
high-water mark of the current class flag to
`max(old, seg.base_addr + seg.data.len() as u32)` (u32 arithmetic). -/
def bumpHwm (st : AsmState) (seg : Segment) : AsmState :=
  let hw := (seg.base_addr + seg.data.length) % 4294967296
  if st.is_text_seg then { st with next_text_addr := max st.next_text_addr hw }
  else { st with next_data_addr := max st.next_data_addr hw }

/-- The `.text`/`.data` branch: push the open segment, take the base
address from the second token when it parses as a number (a
non-parsing token is consumed and the class default used), check the
class range, reject a third token. -/
def doDirective (st : AsmState) (isText : Bool) (tokens : List Str) : Except AssemblerError AsmState :=
  let segs' := st.segs ++ st.curr_seg.toList
  let base :=
    match (tokens.get? 1).bind try_parse_number with
    | some x => x
    | none => if isText then st.next_text_addr else st.next_data_addr
  let lo : Nat := if isText then 0x00400000 else 0x10000000
  let hi : Nat := if isText then 0x0fffffff else 0x7fffffff
  if base < lo ∨ hi < base then .error (.baseAddressOutOfRange base lo hi)
  else
    match tokens.get? 2 with
    | some tk => .error (.trailingToken tk)
    | none =>
      .ok { st with segs := segs', curr_seg := some (Segment.new base), is_text_seg := isText }

/-- The `.globl` branch: a label token is required, then an open
segment; the label goes into the global set.  Remaining tokens are
never examined. -/
def doGlobl (st : AsmState) (line : Str) (tokens : List Str) : Except AssemblerError AsmState :=
  match tokens.get? 1 with
  | none => .error .requiredArgNotFound
  | some label =>
    if st.curr_seg.isNone then .error (.segmentRequired line)
    else .ok { st with global_labels := List.insert label st.global_labels }

/-- The comma-separated `.word` operands: everything after the first
token, each piece trimmed and parsed as a number, else `InvalidToken`
carrying the untrimmed piece.  (The source interleaves the parse with
`extend_from_slice`, but an error aborts the whole `assemble`, so the
all-or-nothing form is observationally equal.) -/
def word_values (line ft : Str) : Except AssemblerError (List Nat) :=
  (splitChar ',' (restAfter line ft)).mapM
    (fun x =>
      match try_parse_number (trim x) with
      | some n => .ok n
      | none => .error (.invalidToken x))

/-- The `.word` branch: needs an open segment; appends each value's
bytes in the configured order and bumps the high-water mark. -/
def doWord (e : EndianMode) (st : AsmState) (line ft : Str) : Except AssemblerError AsmState :=
  match st.curr_seg with
  | none => .error (.segmentRequired line)
  | some seg =>
    match word_values line ft with
    | .error er => .error er
    | .ok vs =>
      let seg' := { seg with data := seg.data ++ vs.flatMap (u32Bytes e) }
      .ok (bumpHwm { st with curr_seg := some seg' } seg')

/-- The instruction branch: parse the mnemonic line first, then
require an open segment, append the encoded word's bytes and bump the
high-water mark. -/
def doIns (e : EndianMode) (st : AsmState) (line ft : Str) : Except AssemblerError AsmState :=
  match try_parse_ins line ft with
  | .error er => .error er
  | .ok ins =>
    match st.curr_seg with
    | none => .error (.segmentRequired line)
    | some seg =>
      let seg' := { seg with data := seg.data ++ u32Bytes e ins.encode }
      .ok (bumpHwm { st with curr_seg := some seg' } seg')

/-- One loop iteration of `assemble`: trim, strip the `#`-comment,
skip blank lines, reject over-long lines, dispatch on the first
whitespace token. -/
def procLine (e : EndianMode) (st : AsmState) (raw : Str) : Except AssemblerError AsmState :=
  let line := stripComment (trim raw)
  if line = [] then .ok st
  else if 8192 < line.length then .error .lineTooLong
  else
    match splitWhitespace line with
    | [] => .ok st
    | ft :: _ =>
      if ft = str ".text" then doDirective st true (splitWhitespace line)
      else if ft = str ".data" then doDirective st false (splitWhitespace line)
      else if ft = str ".globl" then doGlobl st line (splitWhitespace line)
      else if ft = str ".word" then doWord e st line ft
      else doIns e st line ft

/-- `assemble` from assemble.rs: process every line, then flush the
open segment.  The `[]` token case inside `procLine` is unreachable (a
nonempty comment-stripped trimmed line starts with a token). -/
def assemble (e : EndianMode) (asm : Str) : Except AssemblerError (List Segment) :=
  match (rustLines asm).foldlM (procLine e) asmInit with
  | .error er => .error er
  | .ok st => .ok (st.segs ++ st.curr_seg.toList)

example : assemble .little (str "") = .ok [] := by decide
example : assemble .little (str "\n\n\n\n\n\n") = .ok [] := by decide
example : (assemble .little (str ".text\n.data\n.text\n.data")).map List.length = .ok 4 := by decide
example : (assemble .little (str ".data\n.text\n.text\n.text")).map List.length = .ok 4 := by decide
example :
    assemble .little (str ".text\nadd $0, $4, $12\nsub $2, $s0, $zero") =
      .ok [{ base_addr := 0x00400000,
             data := [0x20, 0x00, 0x8c, 0x00, 0x22, 0x10, 0x00, 0x02], labels := [] }] := by
  decide
example :
    assemble .little (str ".data\n.word 123, 0x123, 0o123\n.word 0xffffffff") =
      .ok [{ base_addr := 0x10000000,
             data := u32Bytes .little 123 ++ u32Bytes .little 0x123 ++
               u32Bytes .little 0o123 ++ u32Bytes .little 0xffffffff, labels := [] }] := by
  decide
example : assemble .little (str ".text zzz") = .ok [Segment.new 0x00400000] := by decide
example : assemble .little (str ".text 0x1000") =
    .error (.baseAddressOutOfRange 0x1000 0x00400000 0x0fffffff) := by decide
example : assemble .little (str "add $0,$0,$0") =
    .error (.segmentRequired (str "add $0,$0,$0")) := by decide

example : try_parse_number (str "0x123") = some 0x123 := by decide
example : try_parse_number (str "0o123") = some 0o123 := by decide
example : try_parse_number (str "zzz") = none := by decide
example : try_parse_reg (str "$s0") = .ok 16 := by decide
example : try_parse_reg (str "$12") = .ok 12 := by decide
example : Instruction.encode (.Add { rd := 0, rs := 4, rt := 12, shamt := 0 }) = 0x008c0020 := by decide
example : Instruction.encode (.Sub { rd := 2, rs := 16, rt := 0, shamt := 0 }) = 0x02001022 := by decide

/-! ## Memory, executors and the web-API state

memory.rs, executor.rs and the interpreter/JIT are not under src/;
they are modelled from the spec (sections 3, 4.4-4.7).  state.rs is
under src/ and `Inner`, `State::*` below follow it line by line. -/

/-- First-match byte lookup over a segment list; addresses covered by
no segment read as zero (spec section 4.4). -/
def byteFromSegs : List Segment → Nat → Nat
  | [], _ => 0
  | seg :: rest, addr =>
    if seg.base_addr ≤ addr ∧ addr < seg.base_addr + seg.data.length then
      seg.data.getD (addr - seg.base_addr) 0
    else byteFromSegs rest addr

/-- Modelled from the spec: `Memory` (memory.rs) is the union of the
assembled segments plus an endianness tag.  Overlapping segments are
materialized in order, so a later segment wins; the lookup therefore
scans the reversed list. -/
structure Memory where
  endian : EndianMode
  segs : List Segment
deriving DecidableEq, Repr

/-- `create_memory(endian, segs)`. -/
def create_memory (e : EndianMode) (segs : List Segment) : Memory :=
  { endian := e, segs := segs }

/-- `create_empty_memory(endian)`: zero-filled. -/
def create_empty_memory (e : EndianMode) : Memory :=
  { endian := e, segs := [] }

/-- One byte of memory. -/
def Memory.readByte (m : Memory) (addr : Nat) : Nat :=
  byteFromSegs m.segs.reverse addr

/-- `read_u32`: four bytes combined in the configured byte order. -/
def Memory.read_u32 (m : Memory) (addr : Nat) : Nat :=
  let b0 := m.readByte addr
  let b1 := m.readByte (addr + 1)
  let b2 := m.readByte (addr + 2)
  let b3 := m.readByte (addr + 3)
  match m.endian with
  | .little => b0 + 256 * b1 + 65536 * b2 + 16777216 * b3
  | .big => b3 + 256 * b2 + 65536 * b1 + 16777216 * b0

/-- Modelled from the spec: `decode` (section 4.1) accepts only opcode
0 and the five funct codes, extracting the R-format fields. -/
def decode (w : Nat) : Option Instruction :=
  let opcode := w / 67108864 % 64
  let f : FormatR :=
    { rd := w / 2048 % 32, rs := w / 2097152 % 32, rt := w / 65536 % 32, shamt := w / 64 % 32 }
  let funct := w % 64
  if opcode ≠ 0 then none
  else if funct = 0x24 then some (.And f)
  else if funct = 0x25 then some (.Or f)
  else if funct = 0x20 then some (.Add f)
  else if funct = 0x22 then some (.Sub f)
  else if funct = 0x2a then some (.Slt f)
  else none

/-- Two's-complement reading of a 32-bit value. -/
def toSigned (v : Nat) : Int :=
  if v < 2147483648 then (v : Int) else (v : Int) - 4294967296

/-- The arithmetic/logic effect of one instruction on the `rs`/`rt`
register values (32-bit wrapping, `slt` signed). -/
def aluEval : Instruction → Nat → Nat → Nat
  | .And _, a, b => a.land b
  | .Or _, a, b => a.lor b
  | .Add _, a, b => (a + b) % 4294967296
  | .Sub _, a, b => (a + (4294967296 - b % 4294967296)) % 4294967296
  | .Slt _, a, b => if toSigned a < toSigned b then 1 else 0

/-- Modelled from the spec: the architectural state of an execution
engine — 32 registers, PC and the owned memory (sections 3, 4.5). -/
structure Arch where
  regs : List Nat
  pc : Nat
  mem : Memory
deriving DecidableEq, Repr

/-- Modelled from the spec: `Interpreter::new(mem)` starts from a
zeroed register file and PC inside the reserved startup region. -/
def Interpreter.new (m : Memory) : Arch :=
  { regs := List.replicate 32 0, pc := 0, mem := m }

/-- Modelled from the spec: `Jit::new(mem)`; the JIT carries the same
architectural state and must be bit-identical to the interpreter
(section 4.6). -/
def Jit.new (m : Memory) : Arch :=
  { regs := List.replicate 32 0, pc := 0, mem := m }

/-- Modelled from the spec (section 4.5): one fetch-decode-execute
step.  A word that does not decode is an execution error and leaves
the state untouched; otherwise `rd` is written and PC advances by 4. -/
def Arch.stepA (a : Arch) : Except String Arch :=
  match decode (a.mem.read_u32 a.pc) with
  | none => .error "InvalidInstruction"
  | some ins =>
    let f := formatOf ins
    let rsv := a.regs.getD f.rs 0
    let rtv := a.regs.getD f.rt 0
    .ok { a with regs := a.regs.set f.rd (aluEval ins rsv rtv), pc := a.pc + 4 }

/-- One past the highest address covered by any segment of `a.mem`. -/
def Arch.maxA (a : Arch) : Nat :=
  a.mem.segs.foldl (fun acc s => max acc (s.base_addr + s.data.length)) 0

theorem byteFromSegs_eq_zero {L : List Segment} {addr : Nat}
    (h : ∀ s ∈ L, s.base_addr + s.data.length ≤ addr) : byteFromSegs L addr = 0 := by
  induction L with
  | nil => rfl
  | cons seg rest ih =>
    have hs := h seg (List.mem_cons_self seg rest)
    rw [byteFromSegs, if_neg]
    · exact ih fun s hsm => h s (List.mem_cons_of_mem seg hsm)
    · rintro ⟨-, h2⟩; omega

theorem foldl_max_start_le (L : List Segment) (acc : Nat) :
    acc ≤ L.foldl (fun acc s => max acc (s.base_addr + s.data.length)) acc := by
  induction L generalizing acc with
  | nil => exact le_refl _
  | cons x t ih =>
    simp only [List.foldl_cons]
    exact le_trans (le_max_left _ _) (ih _)

theorem le_foldl_max {s : Segment} {L : List Segment} (h : s ∈ L) (acc : Nat) :
    s.base_addr + s.data.length ≤ L.foldl (fun acc s => max acc (s.base_addr + s.data.length)) acc := by
  induction L generalizing acc with
  | nil => cases h
  | cons x t ih =>
    simp only [List.foldl_cons]
    rcases List.mem_cons.mp h with rfl | h
    · exact le_trans (le_max_right _ _) (foldl_max_start_le _ _)
    · exact ih h _

theorem decode_zero : decode 0 = none := by decide

theorem read_u32_beyond {a : Arch} (h : a.maxA ≤ a.pc) : a.mem.read_u32 a.pc = 0 := by
  have hz : ∀ k, a.mem.readByte (a.pc + k) = 0 := by
    intro k
    apply byteFromSegs_eq_zero
    intro s hs
    have : s.base_addr + s.data.length ≤ a.maxA := le_foldl_max (List.mem_reverse.mp hs) 0
    omega
  have h0 := hz 0
  rw [Nat.add_zero] at h0
  rw [Memory.read_u32]
  cases hE : a.mem.endian <;> simp only [h0, hz 1, hz 2, hz 3]

theorem stepA_ok {a a' : Arch} (h : a.stepA = .ok a') :
    a.pc < a.maxA ∧ a'.pc = a.pc + 4 ∧ a'.maxA = a.maxA := by
  rw [Arch.stepA] at h
  by_cases hlt : a.pc < a.maxA
  · revert h
    cases hd : decode (a.mem.read_u32 a.pc) with
    | none => intro h; cases h
    | some ins =>
      intro h
      cases h
      exact ⟨hlt, rfl, rfl⟩
  · rw [read_u32_beyond (by omega), decode_zero] at h
    cases h

/-- Modelled from the spec (sections 4.5-4.7): `exec()` runs step
after step until an execution error stops the run.  Termination: each
successful step advances PC by 4, and beyond the last segment every
word reads as zero, which does not decode. -/
def Arch.execA (a : Arch) : Except String Arch :=
  match h : a.stepA with
  | .error er => .error er
  | .ok a' => a'.execA
termination_by a.maxA + 4 - a.pc
decreasing_by
  rcases stepA_ok h with ⟨h1, h2, h3⟩
  omega

/-- The capability-tagged executor union of state.rs/executor.rs. -/
inductive Executor where
  | ExInterpreter : Arch → Executor
  | ExJit : Arch → Executor
deriving DecidableEq, Repr

/-- `as_arch`: the architectural state of either engine. -/
def Executor.as_arch : Executor → Arch
  | .ExInterpreter a => a
  | .ExJit a => a

/-- Rebuild the executor around an updated architectural state. -/
def Executor.withArch : Executor → Arch → Executor
  | .ExInterpreter _, a => .ExInterpreter a
  | .ExJit _, a => .ExJit a

/-- Modelled from the spec: `Executor::step` dispatches to the active
engine; interpreter and JIT steps are bit-identical (section 4.6). -/
def Executor.step (ex : Executor) : Except String Executor :=
  match ex.as_arch.stepA with
  | .error er => .error er
  | .ok a => .ok (ex.withArch a)

/-- Modelled from the spec: `Executor::exec` runs until an execution
error. -/
def Executor.exec (ex : Executor) : Except String Executor :=
  match ex.as_arch.execA with
  | .error er => .error er
  | .ok a => .ok (ex.withArch a)

namespace WebApi

/-- `Inner` from state.rs: the clean-after-reset flag plus the live
executor.  (The name is qualified as `WebApi.Inner` because `Inner`
already names a Mathlib class.) -/
structure Inner where
  clean_after_reset : Bool
  exec : Executor
deriving DecidableEq, Repr

/-- `Inner::default()`: clean, with an interpreter over empty memory
in the host's native endianness (the host order is a parameter of the
model). -/
def Inner.default (native : EndianMode) : Inner :=
  { clean_after_reset := true,
    exec := .ExInterpreter (Interpreter.new (create_empty_memory native)) }

/-- `State::reset`: replace the inner state with the default.  (The
`notify_all` callback only reads state and is omitted.) -/
def State.reset (native : EndianMode) (_inn : Inner) : Inner :=
  Inner.default native

/-- Alias for the top-level assembler: inside `State.assemble` below
the bare name `assemble` would refer to the definition itself. -/
def assembleProgram : EndianMode → Str → Except AssemblerError (List Segment) := assemble

/-- `State::assemble`: on assembler failure the error is returned (the
source stringifies it; the structured error is kept here) and the
previous executor stays; on success a fresh executor owns the new
memory — JIT when the requested endianness is the host's, interpreter
otherwise. -/
def State.assemble (native : EndianMode) (inn : Inner) (endian : EndianMode) (code : Str) :
    Except AssemblerError Unit × Inner :=
  match assembleProgram endian code with
  | .error er => (.error er, inn)
  | .ok segs =>
    let mem := create_memory endian segs
    let ex := if endian = native then Executor.ExJit (Jit.new mem)
      else Executor.ExInterpreter (Interpreter.new mem)
    (.ok (), { inn with exec := ex })

/-- `State::edit_register`: clears the clean flag and writes the
register.  (The source always returns `Ok(())`; the unit result is
omitted.) -/
def State.edit_register (inn : Inner) (r : Nat) (val : Nat) : Inner :=
  let inn1 := { inn with clean_after_reset := false }
  let a := inn1.exec.as_arch
  { inn1 with exec := inn1.exec.withArch { a with regs := a.regs.set r val } }

/-- `State::step_silent`: clears the clean flag; a PC below `0x1000`
is a successful no-op, otherwise one executor step runs. -/
def State.step_silent (inn : Inner) : Except String Unit × Inner :=
  let inn1 := { inn with clean_after_reset := false }
  if inn1.exec.as_arch.pc < 4096 then (.ok (), inn1)
  else
    match inn1.exec.step with
    | .ok ex => (.ok (), { inn1 with exec := ex })
    | .error er => (.error er, inn1)

/-- `State::step`: clears the clean flag, then `step_silent` (then
`notify_all`, which only reads state). -/
def State.step (inn : Inner) : Except String Unit × Inner :=
  let inn1 := { inn with clean_after_reset := false }
  State.step_silent inn1

/-- `State::exec_silent`: clears the clean flag; a PC below `0x1000`
is a successful no-op, otherwise the executor runs to completion. -/
def State.exec_silent (inn : Inner) : Except String Unit × Inner :=
  let inn1 := { inn with clean_after_reset := false }
  if inn1.exec.as_arch.pc < 4096 then (.ok (), inn1)
  else
    match inn1.exec.exec with
    | .ok ex => (.ok (), { inn1 with exec := ex })
    | .error er => (.error er, inn1)

end WebApi

example : WebApi.State.step_silent (WebApi.Inner.default .little) =
    (.ok (), { WebApi.Inner.default .little with clean_after_reset := false }) := by decide

/-! ## Ghost instrumentation used to state the invariants

These definitions do not model source code; they give names to the
quantities the spec describes (the per-class high-water mark as a
maximum over emissions, the emptiness of every label table) so the
claims can be stated. -/

/-- The label-emptiness invariant of the assembler loop state. -/
def LabelsEmpty (st : AsmState) : Prop :=
  (∀ s ∈ st.segs, s.labels = []) ∧ (∀ s, st.curr_seg = some s → s.labels = [])

/-- The emission a line makes, read off the states before and after
it: a `.word`/instruction line grows the open segment's buffer and
emits `(class flag, base_addr + accumulated length)` (as `u32`);
directive, `.globl` and blank lines emit nothing. -/
def lineEmits (st st' : AsmState) : List (Bool × Nat) :=
  match st.curr_seg, st'.curr_seg with
  | some seg, some seg' =>
    if seg.data.length < seg'.data.length then
      [(st'.is_text_seg, (seg'.base_addr + seg'.data.length) % 4294967296)]
    else []
  | _, _ => []

/-- The spec's high-water mark: the maximum, over every emission under
the given class flag, of `base_addr` plus accumulated data length,
starting from the class's initial address. -/
def emsMax (init : Nat) (isText : Bool) (ems : List (Bool × Nat)) : Nat :=
  ems.foldl (fun acc p => if p.1 = isText then max acc p.2 else acc) init

/-- The assembler loop state paired with the emission trace of the run
so far. -/
structure TState where
  st : AsmState
  ems : List (Bool × Nat)
deriving DecidableEq, Repr

/-- `procLine` instrumented to record the line's emissions. -/
def procLineT (e : EndianMode) (t : TState) (raw : Str) : Except AssemblerError TState :=
  match procLine e t.st raw with
  | .error er => .error er
  | .ok st' => .ok ⟨st', t.ems ++ lineEmits t.st st'⟩

/-- The instrumented assembler loop from the initial state. -/
def runT (e : EndianMode) (lns : List Str) : Except AssemblerError TState :=
  lns.foldlM (procLineT e) ⟨asmInit, []⟩

/-- The two high-water marks always equal the spec's max-over-emissions
description of them. -/
def HwmInv (t : TState) : Prop :=
  t.st.next_text_addr = emsMax 0x00400000 true t.ems ∧
  t.st.next_data_addr = emsMax 0x10000000 false t.ems


/-! ## Claim C2 -/

/-- C2: whenever the program counter is below `0x1000`, `step()`,
`step_silent()` and `exec_silent()` return success and perform no
fetch, decode or execution — the executor (registers, PC and memory)
is left unchanged; only the clean-after-reset flag is touched. -/
theorem c2_step_noop_below_0x1000 (inn : WebApi.Inner)
    (h : inn.exec.as_arch.pc < 4096) :
    WebApi.State.step_silent inn = (.ok (), { inn with clean_after_reset := false }) ∧
    WebApi.State.step inn = (.ok (), { inn with clean_after_reset := false }) ∧
    WebApi.State.exec_silent inn = (.ok (), { inn with clean_after_reset := false }) := by
  have h1 : ({ inn with clean_after_reset := false } : WebApi.Inner).exec.as_arch.pc < 4096 := h
  refine ⟨?_, ?_, ?_⟩ <;>
    simp only [WebApi.State.step_silent, WebApi.State.step, WebApi.State.exec_silent, if_pos h1]

/-- Witness for C2 at the freshly constructed state, whose PC is 0. -/
theorem c2_witness :
    (WebApi.Inner.default .little).exec.as_arch.pc < 4096 ∧
    WebApi.State.step_silent (WebApi.Inner.default .little) =
      (.ok (), { WebApi.Inner.default .little with clean_after_reset := false }) ∧
    WebApi.State.step (WebApi.Inner.default .little) =
      (.ok (), { WebApi.Inner.default .little with clean_after_reset := false }) ∧
    WebApi.State.exec_silent (WebApi.Inner.default .little) =
      (.ok (), { WebApi.Inner.default .little with clean_after_reset := false }) :=
  ⟨by decide, c2_step_noop_below_0x1000 (WebApi.Inner.default .little) (by decide)⟩

/-! ## Claim C8 -/

/-- C8: the clean-after-reset flag is true after construction
(`Inner::default`) and after `reset()`, and every call to
`edit_register`, `step`, `step_silent` or `exec_silent` sets it false
— unconditionally, so also when a PC below `0x1000` makes the step
itself a no-op. -/
theorem c8_clean_after_reset_flag :
    (∀ native, (WebApi.Inner.default native).clean_after_reset = true) ∧
    (∀ native inn, (WebApi.State.reset native inn).clean_after_reset = true) ∧
    (∀ inn r v, (WebApi.State.edit_register inn r v).clean_after_reset = false) ∧
    (∀ inn, (WebApi.State.step inn).2.clean_after_reset = false) ∧
    (∀ inn, (WebApi.State.step_silent inn).2.clean_after_reset = false) ∧
    (∀ inn, (WebApi.State.exec_silent inn).2.clean_after_reset = false) := by
  have hss : ∀ inn : WebApi.Inner, (WebApi.State.step_silent inn).2.clean_after_reset = false := by
    intro inn
    rw [WebApi.State.step_silent]
    split
    · rfl
    · split <;> rfl
  refine ⟨fun _ => rfl, fun _ _ => rfl, fun _ _ _ => rfl, fun inn => hss _, hss, ?_⟩
  intro inn
  rw [WebApi.State.exec_silent]
  split
  · rfl
  · split <;> rfl

/-! ## Claim C4 -/

/-- C4: assembly is atomic.  When any line fails, `assemble` returns
just the assembler error — the `Vec<Segment>` built so far is dropped,
not returned — and `State::assemble` propagates the error leaving the
caller's `Inner` (in particular its `Executor`) exactly as it was. -/
theorem c4_assemble_atomic (native endian : EndianMode) (inn : WebApi.Inner) (code : Str)
    (er : AssemblerError) (h : assemble endian code = .error er) :
    WebApi.State.assemble native inn endian code = (.error er, inn) := by
  rw [WebApi.State.assemble]
  have hp : WebApi.assembleProgram endian code = .error er := h
  rw [hp]

/-- Witness for C4: an instruction line before any directive fails
with `SegmentRequired`, and the previous executor survives. -/
theorem c4_witness :
    WebApi.State.assemble .little (WebApi.Inner.default .little) .little (str "add $0,$0,$0") =
      (.error (.segmentRequired (str "add $0,$0,$0")), WebApi.Inner.default .little) :=
  c4_assemble_atomic .little .little (WebApi.Inner.default .little) (str "add $0,$0,$0")
    (.segmentRequired (str "add $0,$0,$0")) (by decide)

/-! ## Claim C5 -/

/-- C5: `add $0,$4,$12` encodes to `0x008c0020` and `sub $2,$s0,$zero`
to `0x02001022` under the R-type layout with the fixed funct codes,
and assembling the two lines appends exactly those words (in the
configured byte order) to the open segment. -/
theorem c5_arith_encodings :
    Instruction.encode (.Add { rd := 0, rs := 4, rt := 12, shamt := 0 }) = 0x008c0020 ∧
    Instruction.encode (.Sub { rd := 2, rs := 16, rt := 0, shamt := 0 }) = 0x02001022 ∧
    ∀ e, assemble e (str ".text\nadd $0,$4,$12\nsub $2,$s0,$zero") =
      .ok [{ base_addr := 0x00400000,
             data := u32Bytes e 0x008c0020 ++ u32Bytes e 0x02001022,
             labels := [] }] := by
  refine ⟨by decide, by decide, fun e => ?_⟩
  cases e <;> decide

/-! ## Generic helper lemmas -/

theorem except_ok_bind {ε α β : Type} (a : α) (f : α → Except ε β) :
    (Except.ok a >>= f) = f a := rfl

theorem except_error_bind {ε α β : Type} (e : ε) (f : α → Except ε β) :
    ((Except.error e : Except ε α) >>= f) = .error e := rfl

/-- An invariant preserved by every `ok` step of a fold in the
`Except` monad holds for the final state. -/
theorem foldlM_except_inv {σ α ε : Type} (f : σ → α → Except ε σ) (P : σ → Prop)
    (hstep : ∀ s a s', P s → f s a = .ok s' → P s') :
    ∀ (l : List α) (s s' : σ), P s → l.foldlM f s = .ok s' → P s' := by
  intro l
  induction l with
  | nil =>
    intro s s' hP h
    rw [List.foldlM_nil] at h
    cases h
    exact hP
  | cons a t ih =>
    intro s s' hP h
    rw [List.foldlM_cons] at h
    cases hfa : f s a with
    | error e => rw [hfa, except_error_bind] at h; cases h
    | ok s1 =>
      rw [hfa, except_ok_bind] at h
      exact ih s1 s' (hstep s a s1 hP hfa) h

theorem splitChar_ne_nil (c : Char) (l : Str) : splitChar c l ≠ [] := by
  cases l with
  | nil => simp [splitChar]
  | cons x xs =>
    rw [splitChar]
    cases h : splitChar c xs with
    | nil => simp
    | cons a t => by_cases hxc : x = c <;> simp [hxc]

theorem splitChar_of_not_mem {c : Char} {l : Str} (h : c ∉ l) : splitChar c l = [l] := by
  induction l with
  | nil => rfl
  | cons x xs ih =>
    have hx : ¬x = c := fun he => h (he ▸ List.mem_cons_self x xs)
    have hxs := ih (fun hm => h (List.mem_cons_of_mem x hm))
    rw [splitChar, hxs]
    show (if x = c then ([] : Str) :: xs :: [] else (x :: xs) :: []) = [x :: xs]
    rw [if_neg hx]

theorem stripComment_of_not_mem {l : Str} (h : '#' ∉ l) : stripComment l = l := by
  induction l with
  | nil => rfl
  | cons x xs ih =>
    have hx : ¬x = '#' := fun he => h (he ▸ List.mem_cons_self x xs)
    rw [stripComment, if_neg hx, ih (fun hm => h (List.mem_cons_of_mem x hm))]

theorem trimLeft_cons_of_not_ws {c : Char} (l : Str) (h : isWs c = false) :
    trimLeft (c :: l) = c :: l := by
  simp [trimLeft, List.dropWhile_cons, h]

/-- A list whose first and last characters are non-whitespace is left
unchanged by `trim`. -/
theorem trim_eq_self_of_ends (c d : Char) {l : Str}
    (hhead : l.head? = some c) (hc : isWs c = false)
    (hlast : l.getLast? = some d) (hd : isWs d = false) : trim l = l := by
  have hrev : trimLeft l.reverse = l.reverse := by
    rw [List.getLast?_eq_head?_reverse] at hlast
    cases hr : l.reverse with
    | nil => rfl
    | cons x xs =>
      rw [hr] at hlast
      cases hlast
      exact trimLeft_cons_of_not_ws _ hd
  rw [trim, hrev, List.reverse_reverse]
  cases hl : l with
  | nil => rfl
  | cons x xs =>
    rw [hl] at hhead
    cases hhead
    exact trimLeft_cons_of_not_ws _ hc

theorem replicate_head? (n : Nat) (c : Char) (x : Char) :
    ((x :: List.replicate n c).head? = some x) := rfl

theorem getLast?_cons_replicate (n : Nat) (c : Char) (x : Char) :
    (x :: List.replicate n c).getLast? = some (if n = 0 then x else c) := by
  rw [List.getLast?_eq_head?_reverse, List.reverse_cons, List.reverse_replicate]
  cases n with
  | zero => rfl
  | succ m => simp [List.replicate_succ]

/-- A nonempty, newline-free string is one single line. -/
theorem rustLines_single {l : Str} (hne : l ≠ []) (hnl : '\n' ∉ l) :
    rustLines l = [l] := by
  cases l with
  | nil => exact absurd rfl hne
  | cons x xs =>
    simp only [rustLines, splitChar_of_not_mem hnl]
    rfl

theorem mapM_except_ne_nil {α β ε : Type} {f : α → Except ε β} {l : List α} {r : List β}
    (hl : l ≠ []) (h : l.mapM f = .ok r) : r ≠ [] := by
  cases l with
  | nil => exact absurd rfl hl
  | cons a t =>
    rw [List.mapM_cons] at h
    cases hfa : f a with
    | error e => rw [hfa, except_error_bind] at h; cases h
    | ok b =>
      rw [hfa, except_ok_bind] at h
      cases hmt : t.mapM f with
      | error e => rw [hmt, except_error_bind] at h; cases h
      | ok bs =>
        rw [hmt, except_ok_bind] at h
        cases h
        simp

theorem u32Bytes_length (e : EndianMode) (v : Nat) : (u32Bytes e v).length = 4 := by
  cases e <;> rfl

theorem getLast?_replicate_succ (n : Nat) (c : Char) :
    (List.replicate (n + 1) c).getLast? = some c := by
  rw [List.replicate_succ, getLast?_cons_replicate]
  split <;> rfl

theorem stripComment_hash_head (l : Str) : stripComment ('#' :: l) = [] := by
  rw [stripComment, if_pos rfl]

/-! ## Claim C6 -/

/-- C6, amended: the length check runs on the line after trimming and
comment-stripping, so it is the processed content that must stay
within 8192 characters; any line whose processed content is longer is
rejected with `LineTooLong`. -/
theorem c6_processed_line_too_long (e : EndianMode) (st : AsmState) (raw : Str)
    (h : 8192 < (stripComment (trim raw)).length) :
    procLine e st raw = .error .lineTooLong := by
  have hne : ¬stripComment (trim raw) = [] := by
    intro h0
    rw [h0] at h
    simp at h
  simp only [procLine]
  rw [if_neg hne, if_pos h]

/-- Witness for C6: a line of 8193 `a`s is rejected. -/
theorem c6_witness :
    procLine EndianMode.little asmInit (List.replicate 8193 'a') = .error .lineTooLong := by
  apply c6_processed_line_too_long
  have h8193 : (8193 : Nat) = 8192 + 1 := rfl
  have htrim : trim (List.replicate 8193 'a') = List.replicate 8193 'a' := by
    refine trim_eq_self_of_ends 'a' 'a' ?_ ?_ ?_ ?_
    · rw [h8193, List.replicate_succ]
      rfl
    · decide
    · rw [h8193]
      exact getLast?_replicate_succ 8192 'a'
    · decide
  have hnm : '#' ∉ List.replicate 8193 'a' := by
    intro hm
    exact absurd (List.mem_replicate.mp hm).2 (by decide)
  rw [htrim, stripComment_of_not_mem hnm, List.length_replicate]
  norm_num

/-- C6 as stated is false: a raw line of 8201 characters whose content
is entirely a `#`-comment is skipped, not rejected — the source trims
and strips the comment before measuring the length. -/
theorem c6_counterexample :
    8192 < ('#' :: List.replicate 8200 'a').length ∧
    assemble .little ('#' :: List.replicate 8200 'a') = .ok [] := by
  have htrim : trim ('#' :: List.replicate 8200 'a') = '#' :: List.replicate 8200 'a' := by
    refine trim_eq_self_of_ends '#' 'a' ?_ ?_ ?_ ?_
    · rfl
    · decide
    · rw [getLast?_cons_replicate]
      rfl
    · decide
  constructor
  · rw [List.length_cons, List.length_replicate]
    norm_num
  · have hne : ('#' :: List.replicate 8200 'a') ≠ [] := List.cons_ne_nil _ _
    have hnl : '\n' ∉ ('#' :: List.replicate 8200 'a') := by
      intro hm
      rcases List.mem_cons.mp hm with h | h
      · exact absurd h (by decide)
      · exact absurd (List.mem_replicate.mp h).2 (by decide)
    have hproc : procLine EndianMode.little asmInit ('#' :: List.replicate 8200 'a') =
        .ok asmInit := by
      simp only [procLine]
      rw [htrim, stripComment_hash_head, if_pos rfl]
    rw [assemble, rustLines_single hne hnl, List.foldlM_cons, hproc, except_ok_bind,
      List.foldlM_nil]
    rfl

theorem splitWhitespace_nil : splitWhitespace [] = [] := rfl

/-- `procLine` on a nonempty, in-bounds processed line is the token
dispatch. -/
theorem procLine_dispatch (e : EndianMode) (st : AsmState) (raw : Str)
    (hne : stripComment (trim raw) ≠ [])
    (hlen : (stripComment (trim raw)).length ≤ 8192)
    (ft : Str) (rest : List Str)
    (htok : splitWhitespace (stripComment (trim raw)) = ft :: rest) :
    procLine e st raw =
      (if ft = str ".text" then doDirective st true (ft :: rest)
       else if ft = str ".data" then doDirective st false (ft :: rest)
       else if ft = str ".globl" then doGlobl st (stripComment (trim raw)) (ft :: rest)
       else if ft = str ".word" then doWord e st (stripComment (trim raw)) ft
       else doIns e st (stripComment (trim raw)) ft) := by
  simp only [procLine]
  rw [if_neg hne, if_neg (by omega), htok]

theorem bumpHwm_curr_seg (st : AsmState) (seg : Segment) :
    (bumpHwm st seg).curr_seg = st.curr_seg := by
  simp only [bumpHwm]
  split <;> rfl

theorem bumpHwm_segs (st : AsmState) (seg : Segment) :
    (bumpHwm st seg).segs = st.segs := by
  simp only [bumpHwm]
  split <;> rfl

theorem bumpHwm_globals (st : AsmState) (seg : Segment) :
    (bumpHwm st seg).global_labels = st.global_labels := by
  simp only [bumpHwm]
  split <;> rfl

theorem bumpHwm_is_text (st : AsmState) (seg : Segment) :
    (bumpHwm st seg).is_text_seg = st.is_text_seg := by
  simp only [bumpHwm]
  split <;> rfl

theorem bumpHwm_next_text (st : AsmState) (seg : Segment) :
    (bumpHwm st seg).next_text_addr =
      if st.is_text_seg then
        max st.next_text_addr ((seg.base_addr + seg.data.length) % 4294967296)
      else st.next_text_addr := by
  simp only [bumpHwm]
  split <;> simp [*]

theorem bumpHwm_next_data (st : AsmState) (seg : Segment) :
    (bumpHwm st seg).next_data_addr =
      if st.is_text_seg then st.next_data_addr
      else max st.next_data_addr ((seg.base_addr + seg.data.length) % 4294967296) := by
  simp only [bumpHwm]
  split <;> simp [*]

/-- `doDirective` on a directive plus exactly one argument token. -/
theorem doDirective_pair (st : AsmState) (isText : Bool) (d a : Str) :
    doDirective st isText [d, a] =
      (let base := match try_parse_number a with
        | some x => x
        | none => if isText then st.next_text_addr else st.next_data_addr
       let lo : Nat := if isText then 0x00400000 else 0x10000000
       let hi : Nat := if isText then 0x0fffffff else 0x7fffffff
       if base < lo ∨ hi < base then .error (.baseAddressOutOfRange base lo hi)
       else .ok { st with
         segs := st.segs ++ st.curr_seg.toList,
         curr_seg := some (Segment.new base),
         is_text_seg := isText }) := rfl

/-- `doDirective` on a bare directive with no argument token. -/
theorem doDirective_bare (st : AsmState) (isText : Bool) (d : Str) :
    doDirective st isText [d] =
      (let base := if isText then st.next_text_addr else st.next_data_addr
       let lo : Nat := if isText then 0x00400000 else 0x10000000
       let hi : Nat := if isText then 0x0fffffff else 0x7fffffff
       if base < lo ∨ hi < base then .error (.baseAddressOutOfRange base lo hi)
       else .ok { st with
         segs := st.segs ++ st.curr_seg.toList,
         curr_seg := some (Segment.new base),
         is_text_seg := isText }) := rfl

/-- A directive line reduces `procLine` to `doDirective` for its
class. -/
theorem procLine_directive (e : EndianMode) (st : AsmState) (raw : Str) (isText : Bool)
    (rest : List Str)
    (hne : stripComment (trim raw) ≠ [])
    (hlen : (stripComment (trim raw)).length ≤ 8192)
    (htok : splitWhitespace (stripComment (trim raw)) =
      (if isText then str ".text" else str ".data") :: rest) :
    procLine e st raw =
      doDirective st isText ((if isText then str ".text" else str ".data") :: rest) := by
  rw [procLine_dispatch e st raw hne hlen _ _ htok]
  cases isText
  · rfl
  · rfl

/-- Shape of a successful `.text`/`.data` directive line. -/
theorem doDirective_ok {st : AsmState} {b : Bool} {toks : List Str} {st' : AsmState}
    (h : doDirective st b toks = .ok st') :
    ∃ base, st' = { st with
      segs := st.segs ++ st.curr_seg.toList,
      curr_seg := some (Segment.new base),
      is_text_seg := b } := by
  simp only [doDirective] at h
  repeat' split at h
  all_goals cases h
  all_goals exact ⟨_, rfl⟩

/-- Shape of a successful `.globl` line. -/
theorem doGlobl_ok {st : AsmState} {line : Str} {toks : List Str} {st' : AsmState}
    (h : doGlobl st line toks = .ok st') :
    ∃ label, st' = { st with global_labels := List.insert label st.global_labels } := by
  simp only [doGlobl] at h
  split at h
  · cases h
  · split at h
    · cases h
    · cases h
      exact ⟨_, rfl⟩

/-- Shape of a successful `.word` line: an open segment, at least one
parsed value, bytes appended, high-water mark bumped. -/
theorem doWord_ok {e : EndianMode} {st : AsmState} {line ft : Str} {st' : AsmState}
    (h : doWord e st line ft = .ok st') :
    ∃ seg vs, st.curr_seg = some seg ∧ word_values line ft = .ok vs ∧ vs ≠ [] ∧
      st' = bumpHwm
        { st with curr_seg := some { seg with data := seg.data ++ vs.flatMap (u32Bytes e) } }
        { seg with data := seg.data ++ vs.flatMap (u32Bytes e) } := by
  rw [doWord] at h
  revert h
  cases hseg : st.curr_seg with
  | none => intro h; cases h
  | some seg =>
    cases hvals : word_values line ft with
    | error er => intro h; cases h
    | ok vs =>
      intro h
      cases h
      refine ⟨seg, vs, rfl, rfl, ?_, rfl⟩
      have hvals' : (splitChar ',' (restAfter line ft)).mapM
          (fun x => match try_parse_number (trim x) with
            | some n => Except.ok n
            | none => Except.error (AssemblerError.invalidToken x)) = .ok vs := hvals
      exact mapM_except_ne_nil (splitChar_ne_nil _ _) hvals'

/-- Shape of a successful instruction line. -/
theorem doIns_ok {e : EndianMode} {st : AsmState} {line ft : Str} {st' : AsmState}
    (h : doIns e st line ft = .ok st') :
    ∃ ins seg, st.curr_seg = some seg ∧ try_parse_ins line ft = .ok ins ∧
      st' = bumpHwm
        { st with curr_seg := some { seg with data := seg.data ++ u32Bytes e (Instruction.encode ins) } }
        { seg with data := seg.data ++ u32Bytes e (Instruction.encode ins) } := by
  rw [doIns] at h
  revert h
  cases hins : try_parse_ins line ft with
  | error er => intro h; cases h
  | ok ins =>
    cases hseg : st.curr_seg with
    | none => intro h; cases h
    | some seg =>
      intro h
      cases h
      exact ⟨ins, seg, rfl, rfl, rfl⟩

/-- Every successful `procLine` is a skipped line or one of the four
dispatch branches succeeding. -/
theorem procLine_ok_cases {e : EndianMode} {st : AsmState} {raw : Str} {st' : AsmState}
    (h : procLine e st raw = .ok st') :
    st' = st ∨
    (∃ b toks, doDirective st b toks = .ok st') ∨
    (∃ line toks, doGlobl st line toks = .ok st') ∨
    (∃ line ft, doWord e st line ft = .ok st') ∨
    (∃ line ft, doIns e st line ft = .ok st') := by
  simp only [procLine] at h
  split at h
  · cases h
    exact Or.inl rfl
  · split at h
    · cases h
    · split at h
      · cases h
        exact Or.inl rfl
      · split at h
        · exact Or.inr (Or.inl ⟨true, _, h⟩)
        · split at h
          · exact Or.inr (Or.inl ⟨false, _, h⟩)
          · split at h
            · exact Or.inr (Or.inr (Or.inl ⟨_, _, h⟩))
            · split at h
              · exact Or.inr (Or.inr (Or.inr (Or.inl ⟨_, _, h⟩)))
              · exact Or.inr (Or.inr (Or.inr (Or.inr ⟨_, _, h⟩)))

/-! ## Claim C9 -/

theorem procLine_labels {e : EndianMode} {st : AsmState} {raw : Str} {st' : AsmState}
    (hP : LabelsEmpty st) (h : procLine e st raw = .ok st') : LabelsEmpty st' := by
  rcases procLine_ok_cases h with rfl | ⟨b, toks, hd⟩ | ⟨line, toks, hg⟩ | ⟨line, ft, hw⟩ |
    ⟨line, ft, hi⟩
  · exact hP
  · rcases doDirective_ok hd with ⟨base, rfl⟩
    constructor
    · intro x hx
      rcases List.mem_append.mp hx with h1 | h2
      · exact hP.1 x h1
      · revert h2
        cases hc : st.curr_seg with
        | none => intro h2; cases h2
        | some sg =>
          intro h2
          have hx : x = sg := by simpa using h2
          exact hx ▸ hP.2 sg hc
    · intro x hx
      have hx' : x = Segment.new base := by
        have := hx
        simp at this
        exact this.symm
      rw [hx']
      rfl
  · rcases doGlobl_ok hg with ⟨label, rfl⟩
    exact ⟨hP.1, hP.2⟩
  · rcases doWord_ok hw with ⟨seg, vs, hseg, hvals, hne, rfl⟩
    constructor
    · intro x hx
      rw [bumpHwm_segs] at hx
      exact hP.1 x hx
    · intro x hx
      rw [bumpHwm_curr_seg] at hx
      have hx' : x = { seg with data := seg.data ++ vs.flatMap (u32Bytes e) } := by
        have := hx
        simp at this
        exact this.symm
      rw [hx']
      exact hP.2 seg hseg
  · rcases doIns_ok hi with ⟨ins, seg, hseg, hins, rfl⟩
    constructor
    · intro x hx
      rw [bumpHwm_segs] at hx
      exact hP.1 x hx
    · intro x hx
      rw [bumpHwm_curr_seg] at hx
      have hx' : x = { seg with data := seg.data ++ u32Bytes e ins.encode } := by
        have := hx
        simp at this
        exact this.symm
      rw [hx']
      exact hP.2 seg hseg

/-- C9: every segment returned by `assemble` has an empty label table —
`.globl` only feeds the discarded `global_labels` set, and no line
writes a segment's `labels`. -/
theorem c9_labels_empty (e : EndianMode) (asm : Str) (segs : List Segment)
    (h : assemble e asm = .ok segs) : ∀ s ∈ segs, s.labels = [] := by
  rw [assemble] at h
  revert h
  cases hf : (rustLines asm).foldlM (procLine e) asmInit with
  | error er => intro h; cases h
  | ok st =>
    intro h
    cases h
    have hP : LabelsEmpty st := by
      refine foldlM_except_inv (procLine e) LabelsEmpty ?_ (rustLines asm) asmInit st
        ⟨?_, ?_⟩ hf
      · intro s a s' hPs hstep
        exact procLine_labels hPs hstep
      · intro x hx
        cases hx
      · intro x hx
        cases hx
    intro s hs
    rcases List.mem_append.mp hs with h1 | h2
    · exact hP.1 s h1
    · revert h2
      cases hc : st.curr_seg with
      | none => intro h2; cases h2
      | some sg =>
        intro h2
        have hs' : s = sg := by simpa using h2
        exact hs' ▸ hP.2 sg hc

/-- Witness for C9 at a one-directive program. -/
theorem c9_witness : (Segment.new 0x00400000).labels = [] :=
  c9_labels_empty EndianMode.little (str ".text") [Segment.new 0x00400000] (by decide)
    (Segment.new 0x00400000) (List.mem_singleton.mpr rfl)

/-! ## Claim C7 -/

theorem emsMax_append (init : Nat) (isText : Bool) (a b : List (Bool × Nat)) :
    emsMax init isText (a ++ b) = emsMax (emsMax init isText a) isText b := by
  simp only [emsMax, List.foldl_append]

theorem lineEmits_self (st : AsmState) : lineEmits st st = [] := by
  simp only [lineEmits]
  cases st.curr_seg with
  | none => rfl
  | some seg => simp

/-- One successful line advances each high-water mark to exactly the
running maximum over the line's emissions for that class. -/
theorem procLine_hwm {e : EndianMode} {st : AsmState} {raw : Str} {st' : AsmState}
    (h : procLine e st raw = .ok st') :
    st'.next_text_addr = emsMax st.next_text_addr true (lineEmits st st') ∧
    st'.next_data_addr = emsMax st.next_data_addr false (lineEmits st st') := by
  rcases procLine_ok_cases h with rfl | ⟨b, toks, hd⟩ | ⟨line, toks, hg⟩ | ⟨line, ft, hw⟩ |
    ⟨line, ft, hi⟩
  · rw [lineEmits_self]
    exact ⟨rfl, rfl⟩
  · rcases doDirective_ok hd with ⟨base, rfl⟩
    have hle : lineEmits st { st with
        segs := st.segs ++ st.curr_seg.toList,
        curr_seg := some (Segment.new base),
        is_text_seg := b } = [] := by
      simp only [lineEmits]
      cases st.curr_seg with
      | none => rfl
      | some seg => simp [Segment.new]
    rw [hle]
    exact ⟨rfl, rfl⟩
  · rcases doGlobl_ok hg with ⟨label, rfl⟩
    have hle : lineEmits st { st with global_labels := List.insert label st.global_labels } =
        [] := by
      simp only [lineEmits]
      cases st.curr_seg with
      | none => rfl
      | some seg => simp
    rw [hle]
    exact ⟨rfl, rfl⟩
  · rcases doWord_ok hw with ⟨seg, vs, hseg, hvals, hne, rfl⟩
    have hlen : 0 < (vs.flatMap (u32Bytes e)).length := by
      cases vs with
      | nil => exact absurd rfl hne
      | cons v t =>
        rw [List.flatMap_cons, List.length_append, u32Bytes_length]
        omega
    have hle : lineEmits st (bumpHwm
        { st with curr_seg := some { seg with data := seg.data ++ vs.flatMap (u32Bytes e) } }
        { seg with data := seg.data ++ vs.flatMap (u32Bytes e) }) =
        [(st.is_text_seg, ((seg.base_addr + (seg.data.length + (vs.flatMap (u32Bytes e)).length))
          % 4294967296))] := by
      simp only [lineEmits, bumpHwm_curr_seg, hseg, bumpHwm_is_text]
      rw [if_pos]
      · simp
      · simp only [List.length_append]
        omega
    rw [hle]
    constructor
    · rw [bumpHwm_next_text]
      simp only [emsMax, List.foldl_cons, List.foldl_nil, List.length_append]
    · rw [bumpHwm_next_data]
      simp only [emsMax, List.foldl_cons, List.foldl_nil, List.length_append]
      cases hb : st.is_text_seg <;> simp
  · rcases doIns_ok hi with ⟨ins, seg, hseg, hins, rfl⟩
    have hle : lineEmits st (bumpHwm
        { st with curr_seg := some { seg with data := seg.data ++ u32Bytes e ins.encode } }
        { seg with data := seg.data ++ u32Bytes e ins.encode }) =
        [(st.is_text_seg, ((seg.base_addr + (seg.data.length + (u32Bytes e ins.encode).length))
          % 4294967296))] := by
      simp only [lineEmits, bumpHwm_curr_seg, hseg, bumpHwm_is_text]
      rw [if_pos]
      · simp
      · rw [List.length_append, u32Bytes_length]
        omega
    rw [hle]
    constructor
    · rw [bumpHwm_next_text]
      simp only [emsMax, List.foldl_cons, List.foldl_nil, List.length_append]
    · rw [bumpHwm_next_data]
      simp only [emsMax, List.foldl_cons, List.foldl_nil, List.length_append]
      cases hb : st.is_text_seg <;> simp

theorem procLineT_inv {e : EndianMode} {t : TState} {raw : Str} {t' : TState}
    (hP : HwmInv t) (h : procLineT e t raw = .ok t') : HwmInv t' := by
  rw [procLineT] at h
  revert h
  cases hp : procLine e t.st raw with
  | error er => intro h; cases h
  | ok st' =>
    intro h
    cases h
    rcases procLine_hwm hp with ⟨h1, h2⟩
    constructor
    · rw [emsMax_append, ← hP.1]
      exact h1
    · rw [emsMax_append, ← hP.2]
      exact h2

theorem runT_inv {e : EndianMode} {lns : List Str} {t : TState}
    (h : runT e lns = .ok t) : HwmInv t :=
  foldlM_except_inv (procLineT e) HwmInv (fun _ _ _ hP hstep => procLineT_inv hP hstep)
    lns ⟨asmInit, []⟩ t ⟨rfl, rfl⟩ h

/-- The instrumented loop projects to the plain assembler loop. -/
theorem runT_proj {e : EndianMode} {lns : List Str} {t0 t : TState}
    (h : lns.foldlM (procLineT e) t0 = .ok t) :
    lns.foldlM (procLine e) t0.st = .ok t.st := by
  induction lns generalizing t0 with
  | nil =>
    rw [List.foldlM_nil] at h
    cases h
    rw [List.foldlM_nil]
    rfl
  | cons a l ih =>
    rw [List.foldlM_cons] at h
    rw [List.foldlM_cons]
    revert h
    rw [procLineT]
    cases hp : procLine e t0.st a with
    | error er => intro h; rw [except_error_bind] at h; cases h
    | ok st1 =>
      intro h
      rw [except_ok_bind] at h
      rw [except_ok_bind]
      exact ih h

/-- C7: a bare `.text`/`.data` directive opens a segment based at the
class's current high-water mark — initially `0x00400000` for text and
`0x10000000` for data, and otherwise the maximum over all bytes
emitted so far under that class flag of base address plus accumulated
length; and the instrumented run used to state this projects to the
real assembler loop. -/
theorem c7_bare_directive_highwater (e : EndianMode) (lns : List Str) (t : TState) (raw : Str)
    (st' : AsmState) (isText : Bool)
    (hrun : runT e lns = .ok t)
    (htok : splitWhitespace (stripComment (trim raw)) =
      [if isText then str ".text" else str ".data"])
    (hok : procLine e t.st raw = .ok st') :
    lns.foldlM (procLine e) asmInit = .ok t.st ∧
    st'.curr_seg = some (Segment.new
      (emsMax (if isText then 0x00400000 else 0x10000000) isText t.ems)) := by
  constructor
  · exact runT_proj hrun
  · have hne : stripComment (trim raw) ≠ [] := by
      intro h0
      rw [h0, splitWhitespace_nil] at htok
      cases htok
    by_cases hlen : 8192 < (stripComment (trim raw)).length
    · rw [c6_processed_line_too_long e t.st raw hlen] at hok
      cases hok
    · rw [procLine_directive e t.st raw isText [] hne (by omega) htok, doDirective_bare] at hok
      rcases runT_inv hrun with ⟨h1, h2⟩
      cases isText
      · have hok' : (if t.st.next_data_addr < 268435456 ∨ 2147483647 < t.st.next_data_addr then
            (Except.error (AssemblerError.baseAddressOutOfRange t.st.next_data_addr
              268435456 2147483647) : Except AssemblerError AsmState)
          else .ok { t.st with
            segs := t.st.segs ++ t.st.curr_seg.toList,
            curr_seg := some (Segment.new t.st.next_data_addr),
            is_text_seg := false }) = .ok st' := hok
        revert hok'
        split
        · intro hok'
          cases hok'
        · intro hok'
          cases hok'
          show some (Segment.new t.st.next_data_addr) =
            some (Segment.new (emsMax 268435456 false t.ems))
          rw [h2]
      · have hok' : (if t.st.next_text_addr < 4194304 ∨ 268435455 < t.st.next_text_addr then
            (Except.error (AssemblerError.baseAddressOutOfRange t.st.next_text_addr
              4194304 268435455) : Except AssemblerError AsmState)
          else .ok { t.st with
            segs := t.st.segs ++ t.st.curr_seg.toList,
            curr_seg := some (Segment.new t.st.next_text_addr),
            is_text_seg := true }) = .ok st' := hok
        revert hok'
        split
        · intro hok'
          cases hok'
        · intro hok'
          cases hok'
          show some (Segment.new t.st.next_text_addr) =
            some (Segment.new (emsMax 4194304 true t.ems))
          rw [h1]

/-- Witness for C7 at the empty program: the first `.text` opens a
segment at `0x00400000`. -/
theorem c7_witness :
    (([] : List Str).foldlM (procLine EndianMode.little) asmInit = .ok asmInit) ∧
    (AsmState.mk [] (some (Segment.new 0x00400000)) [] true 0x10000000 0x00400000).curr_seg =
      some (Segment.new (emsMax 0x00400000 true [])) := by
  have h := c7_bare_directive_highwater EndianMode.little [] ⟨asmInit, []⟩ (str ".text")
    (AsmState.mk [] (some (Segment.new 0x00400000)) [] true 0x10000000 0x00400000) true
    rfl (by decide) (by decide)
  exact h

/-! ## Claim C1, counterexample -/

/-- C1 as stated is false: `.text zzz` carries an address argument
that does not parse as a number, yet `assemble` succeeds — the
argument is consumed and the class default base is used instead of
reporting `BaseAddressOutOfRange`. -/
theorem c1_counterexample :
    try_parse_number (str "zzz") = none ∧
    assemble .little (str ".text zzz") = .ok [Segment.new 0x00400000] := by
  exact ⟨by decide, by decide⟩

/-- C1, amended: for a `.text`/`.data` directive line with one address
argument, `assemble` fails with `BaseAddressOutOfRange` exactly when
the argument parses as a number outside the class's legal range; an
argument that does not parse as a number is consumed and ignored, the
class default (high-water mark) taking its place. -/
theorem c1_directive_address (e : EndianMode) (st : AsmState) (raw : Str) (isText : Bool) (a : Str)
    (htok : splitWhitespace (stripComment (trim raw)) =
      [(if isText then str ".text" else str ".data"), a])
    (hlen : (stripComment (trim raw)).length ≤ 8192) :
    (∀ n, try_parse_number a = some n →
      procLine e st raw =
        (if n < (if isText then 0x00400000 else 0x10000000) ∨
            (if isText then 0x0fffffff else 0x7fffffff) < n then
          .error (.baseAddressOutOfRange n (if isText then 0x00400000 else 0x10000000)
            (if isText then 0x0fffffff else 0x7fffffff))
        else .ok { st with
          segs := st.segs ++ st.curr_seg.toList,
          curr_seg := some (Segment.new n),
          is_text_seg := isText })) ∧
    (try_parse_number a = none →
      procLine e st raw =
        (let dflt := if isText then st.next_text_addr else st.next_data_addr
         if dflt < (if isText then 0x00400000 else 0x10000000) ∨
            (if isText then 0x0fffffff else 0x7fffffff) < dflt then
          .error (.baseAddressOutOfRange dflt (if isText then 0x00400000 else 0x10000000)
            (if isText then 0x0fffffff else 0x7fffffff))
        else .ok { st with
          segs := st.segs ++ st.curr_seg.toList,
          curr_seg := some (Segment.new dflt),
          is_text_seg := isText })) := by
  have hne : stripComment (trim raw) ≠ [] := by
    intro h0
    rw [h0, splitWhitespace_nil] at htok
    simp at htok
  rw [procLine_directive e st raw isText [a] hne hlen htok, doDirective_pair]
  refine ⟨fun n hn => ?_, fun hn => ?_⟩ <;> rw [hn]

/-- Witness for C1: `.text 0x1000` parses to an out-of-range text base
and is rejected with `BaseAddressOutOfRange`. -/
theorem c1_witness :
    procLine EndianMode.little asmInit (str ".text 0x1000") =
      .error (.baseAddressOutOfRange 0x1000 0x00400000 0x0fffffff) := by
  have h := (c1_directive_address EndianMode.little asmInit (str ".text 0x1000") true
    (str "0x1000") (by decide) (by decide)).1 0x1000 (by decide)
  rw [h]
  decide

/-! ## Claim C10 -/

/-- C10: a `.globl` line with a label while a segment is open is
accepted no matter what tokens trail the label — `.globl` never
produces a `TrailingToken` error. -/
theorem c10_globl_ignores_trailing (e : EndianMode) (st : AsmState) (raw : Str)
    (label : Str) (rest : List Str) (seg : Segment)
    (hseg : st.curr_seg = some seg)
    (htok : splitWhitespace (stripComment (trim raw)) = str ".globl" :: label :: rest)
    (hlen : (stripComment (trim raw)).length ≤ 8192) :
    procLine e st raw = .ok { st with global_labels := List.insert label st.global_labels } := by
  have hne : stripComment (trim raw) ≠ [] := by
    intro h0
    rw [h0, splitWhitespace_nil] at htok
    simp at htok
  rw [procLine_dispatch e st raw hne hlen _ _ htok]
  rw [if_neg (by decide), if_neg (by decide), if_pos rfl]
  simp [doGlobl, hseg]

/-- Witness for C10: `.globl main extra junk` is accepted. -/
theorem c10_witness :
    procLine EndianMode.little
      { asmInit with curr_seg := some (Segment.new 0x00400000), is_text_seg := true }
      (str ".globl main extra junk") =
      .ok { asmInit with
        curr_seg := some (Segment.new 0x00400000),
        is_text_seg := true,
        global_labels := List.insert (str "main") [] } := by
  have h := c10_globl_ignores_trailing EndianMode.little
    { asmInit with curr_seg := some (Segment.new 0x00400000), is_text_seg := true }
    (str ".globl main extra junk") (str "main") [str "extra", str "junk"]
    (Segment.new 0x00400000) rfl (by decide) (by decide)
  rw [h]
  rfl

/-! ## Claim C3 -/

/-- C3: for every endianness configuration, a `.word` line whose
operands parse successfully appends exactly the operands' 32-bit
values laid out in the configured byte order to the open segment. -/
theorem c3_word_bytes (e : EndianMode) (st : AsmState) (raw : Str) (seg : Segment)
    (vs : List Nat) (st' : AsmState)
    (hseg : st.curr_seg = some seg)
    (hft : (splitWhitespace (stripComment (trim raw))).head? = some (str ".word"))
    (hvals : word_values (stripComment (trim raw)) (str ".word") = .ok vs)
    (hok : procLine e st raw = .ok st') :
    st'.curr_seg = some { seg with data := seg.data ++ vs.flatMap (u32Bytes e) } := by
  cases htk : splitWhitespace (stripComment (trim raw)) with
  | nil =>
    rw [htk] at hft
    cases hft
  | cons ft rest =>
    rw [htk] at hft
    have hfte : ft = str ".word" := by
      simpa using hft
    subst hfte
    have hne : stripComment (trim raw) ≠ [] := by
      intro h0
      rw [h0, splitWhitespace_nil] at htk
      cases htk
    by_cases hlen : 8192 < (stripComment (trim raw)).length
    · rw [c6_processed_line_too_long e st raw hlen] at hok
      cases hok
    · rw [procLine_dispatch e st raw hne (by omega) _ _ htk] at hok
      rw [if_neg (by decide), if_neg (by decide), if_neg (by decide), if_pos rfl] at hok
      rw [doWord, hseg, hvals] at hok
      cases hok
      rw [bumpHwm_curr_seg]

/-- Witness for C3: `.word 1, 0x2` in big-endian order appends
`00 00 00 01 00 00 00 02`. -/
theorem c3_witness :
    (AsmState.mk [] (some (Segment.mk 0x10000000 [0, 0, 0, 1, 0, 0, 0, 2] []))
        [] false 0x10000008 0x00400000).curr_seg =
      some (Segment.mk 0x10000000 (([] : List Nat) ++ [1, 2].flatMap (u32Bytes .big)) []) := by
  have h := c3_word_bytes EndianMode.big
    { asmInit with curr_seg := some (Segment.new 0x10000000) }
    (str ".word 1, 0x2") (Segment.new 0x10000000) [1, 2]
    (AsmState.mk [] (some (Segment.mk 0x10000000 [0, 0, 0, 1, 0, 0, 0, 2] []))
      [] false 0x10000008 0x00400000)
    rfl (by decide) (by decide) (by decide)
  exact h
